import Mathlib

/-!
Verification of the pyRevit extension-component model
(`pyrevitlib/pyrevit/extensions/genericcomps.py`).

The Python classes `GenericComponent`, `GenericUIComponent`,
`GenericUIContainer` and `GenericUICommand` are shallowly embedded below.
Pure methods become Lean functions; stateful methods become functions from
an explicit state to a new state; filesystem and parser collaborators that
live outside this repository slice are passed in as explicit inputs.
Constants imported by the source from `pyrevit.extensions` (the package
initializer is not part of the analysed sources) are modelled from the
specification and marked as such.
-/

namespace PyRevit

/-- Modelled from the spec: `exts.SEPARATOR_IDENTIFIER`, the `---`-style
separator marker token recognised inside layout lines (the constant lives in
the `pyrevit.extensions` package initializer, which is not among the
analysed sources). -/
def SEPARATOR_IDENTIFIER : String := "---"

/-- Modelled from the spec: `exts.SLIDEOUT_IDENTIFIER`, the slide-out marker
token recognised inside layout lines (constant from the `pyrevit.extensions`
package initializer, not among the analysed sources). -/
def SLIDEOUT_IDENTIFIER : String := ">>>"

/-- A container child as seen by the layout engine: the fields of a stored
sub-component that `_get_components_per_layout`, `_apply_layout_directive`
and `contains` read or write (`component.name`, `component.ui_title`). -/
structure Cmp where
  name : String
  ui_title : String
deriving DecidableEq, Repr

/-- `LayoutDirective = namedtuple('LayoutDirective', ['type', 'item', 'target'])`. -/
structure LayoutDirective where
  type : String
  item : String
  target : String
deriving DecidableEq, Repr

/-- An element of the list returned by `_get_components_per_layout`: either a
stored child component, or a synthetic bare `GenericComponent` whose
`type_id` is a separator / slide-out marker identifier. -/
inductive LayoutEntry where
  | comp (c : Cmp)
  | generic (type_id : String)
deriving DecidableEq, Repr

/-- Substring membership on character lists: Python's `pat in s`. -/
def listContainsSub (l pat : List Char) : Bool :=
  match l with
  | [] => pat.isEmpty
  | _ :: t => pat.isPrefixOf l || listContainsSub t pat

/-- Python's `pat in s` on strings (substring containment). -/
def strContainsSub (s pat : String) : Bool :=
  listContainsSub s.data pat.data

/-- The suffix of `t` strictly after the last `']'` of `t`
(all of `t` when `t` has no `']'`). -/
def afterLastClose (t : List Char) : List Char :=
  (t.reverse.takeWhile (fun c => c ≠ ']')).reverse

/-- `re.sub(r'\[.+\]', '', layout_item)` on one newline-free line, at the
character-list level.  The regex matches from the first `'['` that is
followed (at distance at least two) by a `']'` up to the last `']'` of the
line (leftmost start, greedy `.+`).  The text after that last `']'`
contains no further `']'`, hence `re.sub` finds no further match in it and
it is emitted unchanged. -/
def pySubBracket : List Char → List Char
  | [] => []
  | c :: t =>
    if c = '[' ∧ (t.drop 1).contains ']' then
      afterLastClose t
    else
      c :: pySubBracket t

/-- `GenericUIContainer._remove_layout_directives` applied to one line. -/
def pyRemoveDirective (s : String) : String :=
  ⟨pySubBracket s.data⟩

/-- `GenericUIContainer._remove_layout_directives`: strip the bracketed
directive suffix from every layout line. -/
def _remove_layout_directives (layout_items : List String) : List String :=
  layout_items.map pyRemoveDirective

/-- Split `l = pre ++ [ch] ++ post` at the last occurrence of `ch`
(`post` free of `ch`); `none` when `ch` does not occur. -/
def splitLast (l : List Char) (ch : Char) : Option (List Char × List Char) :=
  if l.contains ch then
    let post := (l.reverse.takeWhile (fun c => c ≠ ch)).reverse
    some (l.take (l.length - post.length - 1), post)
  else
    none

/-- Python `str.strip()`: drop ASCII whitespace from both ends. -/
def pyStrip (l : List Char) : List Char :=
  ((l.dropWhile Char.isWhitespace).reverse.dropWhile Char.isWhitespace).reverse

/-- Python 2 `string_escape` decoding of the directive target, modelled for
the common escapes: a backslash followed by `n`, `t`, `r`, `\`, `'` or `"`
is decoded; any other escape is kept verbatim (as CPython 2 does).  Octal
and hex escapes are not modelled; no analysed claim evaluates a directive
target. -/
def pyStringEscape : List Char → List Char
  | [] => []
  | ['\\'] => ['\\']
  | '\\' :: c :: t =>
    if c = 'n' then '\n' :: pyStringEscape t
    else if c = 't' then '\t' :: pyStringEscape t
    else if c = 'r' then '\r' :: pyStringEscape t
    else if c = '\\' then '\\' :: pyStringEscape t
    else if c = '\'' then '\'' :: pyStringEscape t
    else if c = '"' then '"' :: pyStringEscape t
    else '\\' :: c :: pyStringEscape t
  | c :: t => c :: pyStringEscape t

/-- One iteration of `re.findall(r'(.+)\[(.+):(.*)\]', item_def)` in
`get_layout_directives`, modelled for the single-directive lines the layout
format uses: group 1 is the text before the last `'['` preceding the last
`']'`, group 2 the (nonempty) text up to the last `':'` between them, group
3 the rest.  The directive type is lower-cased and stripped, the target is
stripped and escape-decoded, exactly as in the source; a line with no such
decomposition yields no directive. -/
def lineDirective (l : List Char) : Option LayoutDirective :=
  match splitLast l ']' with
  | none => none
  | some (pre, _) =>
    match splitLast pre '[' with
    | none => none
    | some (g1, inner) =>
      if g1 = [] then none
      else
        match splitLast inner ':' with
        | none => none
        | some (g2, g3) =>
          if g2 = [] then none
          else
            some { type := ⟨pyStrip (g2.map Char.toLower)⟩
                   item := ⟨g1⟩
                   target := ⟨pyStringEscape (pyStrip g3)⟩ }

/-- `GenericUIContainer.get_layout_directives`: collect the directives of
every raw layout line. -/
def get_layout_directives (layout : List String) : List LayoutDirective :=
  layout.foldl (fun acc line =>
    match lineDirective line.data with
    | some d => acc ++ [d]
    | none => acc) []

/-- `GenericUIContainer._apply_layout_directive`: grab the first directive
whose `item` equals the component's name; a `title` directive overwrites the
component's `ui_title`. -/
def _apply_layout_directive (layout_directives : List LayoutDirective) (component : Cmp) : Cmp :=
  match layout_directives.find? (fun x => x.item == component.name) with
  | some d => if d.type == "title" then { component with ui_title := d.target } else component
  | none => component

/-- First pass of `_get_components_per_layout` (lines 217-227 of
`genericcomps.py`): for each cleaned layout item scan `_sub_components`
from the start, and on the first component whose `name` equals the item
apply any matching directive, append it to the accumulator and `break`.
No component is marked as consumed. -/
def layoutMatchPass (layout_directives : List LayoutDirective)
    (sub_components : List Cmp) (layout_items : List String) : List LayoutEntry :=
  layout_items.foldl (fun acc layout_item =>
    match sub_components.find? (fun component => component.name == layout_item) with
    | some component => acc ++ [LayoutEntry.comp (_apply_layout_directive layout_directives component)]
    | none => acc) []

/-- Python `list.insert(i, x)`: insert at position `i`, appending at the end
when `i` is not less than the length. -/
def pyInsert (l : List α) (i : Nat) (x : α) : List α :=
  l.take i ++ [x] ++ l.drop i

/-- Second pass of `_get_components_per_layout` (lines 230-242): walk the
cleaned layout items with their index; a line containing the separator
(resp. slide-out) identifier that is not the last line inserts a synthetic
marker node at that index into the evolving output list. -/
def layoutMarkerPass (layout_items : List String) (cmps : List LayoutEntry) : List LayoutEntry :=
  let last_item_index := layout_items.length - 1
  layout_items.enum.foldl (fun acc p =>
    if strContainsSub p.2 SEPARATOR_IDENTIFIER ∧ p.1 < last_item_index then
      pyInsert acc p.1 (LayoutEntry.generic SEPARATOR_IDENTIFIER)
    else if strContainsSub p.2 SLIDEOUT_IDENTIFIER ∧ p.1 < last_item_index then
      pyInsert acc p.1 (LayoutEntry.generic SLIDEOUT_IDENTIFIER)
    else acc) cmps

/-- `GenericUIContainer._get_components_per_layout` (the body of container
iteration).  `layout` is `self.layout`: `none` when no layout file was read,
otherwise the raw lines; `self.layout_items` is then their cleaned form, as
set by `_read_layout_file`.  When both the cleaned item list and the stored
child list are truthy (non-`None`, nonempty) the two reordering passes run;
otherwise the stored children are returned in discovery order. -/
def _get_components_per_layout (layout : Option (List String))
    (sub_components : List Cmp) : List LayoutEntry :=
  match layout with
  | some raw =>
    let layout_items := _remove_layout_directives raw
    if layout_items ≠ [] ∧ sub_components ≠ [] then
      layoutMarkerPass layout_items
        (layoutMatchPass (get_layout_directives raw) sub_components layout_items)
    else
      sub_components.map LayoutEntry.comp
  | none => sub_components.map LayoutEntry.comp

/-- `GenericUIContainer.contains`: return `True` on the first stored child
whose name equals `item_name`; fall off the end (Python `None`) otherwise.
The codomain `Option Bool` models the Python result: `some true` is `True`,
`none` is `None`; `some false` (Python `False`) is never produced. -/
def contains (sub_components : List Cmp) (item_name : String) : Option Bool :=
  match sub_components.find? (fun component => item_name == component.name) with
  | some _ => some true
  | none => none

/-! ## Search-path propagation

The mutable search-path state of the component tree: a `GenericUICommand`
(or any non-container `GenericUIComponent`) carries its `module_paths`
list; a `GenericUIContainer` additionally carries its `_sub_components`.
Python `None`/empty-string truthiness of the `path` argument is the guard
`path ≠ ""`. -/

mutual
/-- A component-tree node projected to its search-path state:
`cmd module_paths` is a non-container `GenericUIComponent`,
`cont module_paths subs` a `GenericUIContainer` with its stored children. -/
inductive UIComp where
  | cmd (module_paths : List String)
  | cont (module_paths : List String) (subs : UICompList)
/-- The `_sub_components` list of a container. -/
inductive UICompList where
  | nil
  | cons (head : UIComp) (tail : UICompList)
end

/-- `self.module_paths` of a node. -/
def pathsOf : UIComp → List String
  | .cmd module_paths => module_paths
  | .cont module_paths _ => module_paths

/-- `GenericUIComponent.has_search_path`: `path in self.module_paths`. -/
def has_search_path (c : UIComp) (path : String) : Bool :=
  (pathsOf c).contains path

mutual
/-- `add_search_path`.  On a plain component (`GenericUIComponent`, lines
126-129): if `path` is truthy and not yet present, append it.  On a
container (`GenericUIContainer`, lines 255-260): under the same guard,
recursively add to every stored child, then append to self. -/
def add_search_path : UIComp → String → UIComp
  | .cmd module_paths, path =>
    if path ≠ "" ∧ ¬ module_paths.contains path then
      .cmd (module_paths ++ [path])
    else
      .cmd module_paths
  | .cont module_paths subs, path =>
    if path ≠ "" ∧ ¬ module_paths.contains path then
      .cont (module_paths ++ [path]) (addSearchPathAll subs path)
    else
      .cont module_paths subs
/-- The `for component in self.get_components(): component.add_search_path(path)` loop. -/
def addSearchPathAll : UICompList → String → UICompList
  | .nil, _ => .nil
  | .cons c cs, path => .cons (add_search_path c path) (addSearchPathAll cs path)
end

mutual
/-- `remove_search_path`.  On a plain component (lines 131-136): if `path`
is truthy and present, `list.remove` it (first occurrence); otherwise a
no-op.  On a container (lines 262-269): under the same guard, recursively
remove from every stored child, then remove from self. -/
def remove_search_path : UIComp → String → UIComp
  | .cmd module_paths, path =>
    if path ≠ "" ∧ module_paths.contains path then
      .cmd (module_paths.erase path)
    else
      .cmd module_paths
  | .cont module_paths subs, path =>
    if path ≠ "" ∧ module_paths.contains path then
      .cont (module_paths.erase path) (removeSearchPathAll subs path)
    else
      .cont module_paths subs
/-- The recursive removal loop over `self.get_components()`. -/
def removeSearchPathAll : UICompList → String → UICompList
  | .nil, _ => .nil
  | .cons c cs, path => .cons (remove_search_path c path) (removeSearchPathAll cs path)
end

/-- Append at the end of a `_sub_components` list
(`self.get_components().append(comp)`). -/
def snocComp : UICompList → UIComp → UICompList
  | .nil, c => .cons c .nil
  | .cons h t, c => .cons h (snocComp t c)

/-- `GenericUIContainer.add_component` (lines 271-274): propagate every
current search path of the container to `comp` in list order, then append
`comp` to the stored children.  Commands store no children; the operation
exists only on containers. -/
def add_component : UIComp → UIComp → UIComp
  | .cont module_paths subs, comp =>
    .cont module_paths (snocComp subs (module_paths.foldl add_search_path comp))
  | .cmd module_paths, _ => .cmd module_paths

mutual
/-- The downward search-path inheritance invariant of the spec: at every
container of the tree, each path of the container's `module_paths` is
present in the `module_paths` of each stored child. -/
def inheritsB : UIComp → Bool
  | .cmd _ => true
  | .cont module_paths subs => inheritsAll module_paths subs
/-- The invariant over a child list: each child contains all parent paths
and recursively satisfies the invariant. -/
def inheritsAll : List String → UICompList → Bool
  | _, .nil => true
  | mp, .cons c cs =>
    mp.all (fun p => (pathsOf c).contains p) && inheritsB c && inheritsAll mp cs
end

mutual
/-- Every node's `module_paths` list is duplicate-free.  The API only ever
appends a path that is not yet present, so every tree built through
`__init_from_dir__` / `add_search_path` / `add_component` satisfies this. -/
def nodupPathsB : UIComp → Bool
  | .cmd module_paths => decide module_paths.Nodup
  | .cont module_paths subs => decide module_paths.Nodup && nodupPathsAll subs
/-- `nodupPathsB` over a child list. -/
def nodupPathsAll : UICompList → Bool
  | .nil => true
  | .cons c cs => nodupPathsB c && nodupPathsAll cs
end

mutual
/-- No node's `module_paths` list contains the empty string.  The truthiness
guard `if path` in the source prevents an empty path from ever being
appended, so every tree built through the API satisfies this. -/
def noEmptyPathsB : UIComp → Bool
  | .cmd module_paths => ! module_paths.contains ""
  | .cont module_paths subs => ! module_paths.contains "" && noEmptyPathsAll subs
/-- `noEmptyPathsB` over a child list. -/
def noEmptyPathsAll : UICompList → Bool
  | .nil => true
  | .cons c cs => noEmptyPathsB c && noEmptyPathsAll cs
end

mutual
/-- Exactly-once bookkeeping for the amended idempotence claim: after
`add_search_path t p`, `p` occurs exactly once in the node's own list, and
the same holds recursively for every child the call propagated into (no
propagation happens when the node already had `p`). -/
def addOnceOk (p : String) : UIComp → Bool
  | .cmd module_paths =>
    (pathsOf (add_search_path (.cmd module_paths) p)).count p == 1
  | .cont module_paths subs =>
    (pathsOf (add_search_path (.cont module_paths subs) p)).count p == 1 &&
      (module_paths.contains p || addOnceOkAll p subs)
/-- `addOnceOk` over a child list. -/
def addOnceOkAll : String → UICompList → Bool
  | _, .nil => true
  | p, .cons c cs => addOnceOk p c && addOnceOkAll p cs
end

/-! ## Unique identifier (`GenericUIComponent._get_unique_name`) -/

/-- Modelled from the spec: `exts.ExtensionTypes.UI_EXTENSION.POSTFIX`, the
UI-extension directory suffix (constant from the `pyrevit.extensions`
package initializer, not among the analysed sources; the spec's example
path is `pyRevit.extension/...`). -/
def UI_EXTENSION_TYPE : String := ".extension"

/-- Modelled from the spec: `exts.UNIQUE_ID_SEPARATOR` (constant from the
`pyrevit.extensions` package initializer, not among the analysed sources;
the spec's example identifier `pyrevit-pyrevit-edit-flipdoors` joins with
a dash). -/
def UNIQUE_ID_SEPARATOR : Char := '-'

/-- `str.split(sep)` for a one-character separator, Python semantics:
`"".split(sep) = [""]`, empty fields kept.  `op.sep` is modelled as the
POSIX path separator `'/'`. -/
def splitSep : List Char → List (List Char)
  | [] => [[]]
  | c :: t =>
    if c = '/' then [] :: splitSep t
    else
      match splitSep t with
      | h :: r => (c :: h) :: r
      | [] => [[c]]

/-- `os.path.splitext` on a single path segment (no separators): the
extension starts at the last dot, unless every character before that dot is
itself a dot (leading-dot names such as `.git` have no extension). -/
def pySplitext (l : List Char) : List Char × List Char :=
  match splitLast l '.' with
  | some (pre, post) =>
    if pre.any (fun c => c ≠ '.') then (pre, '.' :: post) else (l, [])
  | none => (l, [])

/-- Modelled from the spec: `coreutils.cleanup_string` (the `coreutils`
module initializer is not among the analysed sources).  Per the spec the
joined identifier is "filtered of disallowed characters": characters other
than alphanumerics are dropped unless listed in `skip`. -/
def cleanup_string (l : List Char) (skip : List Char) : List Char :=
  l.filter (fun c => c.isAlphanum || skip.contains c)

/-- The piece-collection loop of `_get_unique_name` (lines 96-107): walk the
directory segments; a segment containing the UI-extension suffix switches
`inside_ext` on (before its own `splitext`); every segment with a nonempty
extension seen while `inside_ext` contributes its extension-stripped name. -/
def uniqueNamePieces : List (List Char) → Bool → List (List Char)
  | [], _ => []
  | dname :: rest, inside_ext =>
    let inside_ext := inside_ext || listContainsSub dname UI_EXTENSION_TYPE.data
    let (name, ext) := pySplitext dname
    if ext ≠ [] ∧ inside_ext then
      name :: uniqueNamePieces rest inside_ext
    else
      uniqueNamePieces rest inside_ext

/-- `exts.UNIQUE_ID_SEPARATOR.join(pieces)` (Python `str.join`). -/
def joinSep : List (List Char) → List Char
  | [] => []
  | [x] => x
  | x :: xs => x ++ UNIQUE_ID_SEPARATOR :: joinSep xs

/-- `GenericUIComponent._get_unique_name` (lines 87-111): split the node's
directory on the path separator, collect the extension-stripped names of
suffixed segments from the extension directory on, join them with the
unique-id separator, clean up the result (keeping the separator) and
lower-case it. -/
def _get_unique_name (directory : String) : String :=
  ⟨(cleanup_string (joinSep (uniqueNamePieces (splitSep directory.data) false))
      [UNIQUE_ID_SEPARATOR]).map Char.toLower⟩

/-- The lower-case alphanumeric characters: segment names over this
alphabet pass through `cleanup_string` and the final lower-casing
unchanged, and are free of the unique-id separator. -/
def CLEAN_CHARS : List Char := "abcdefghijklmnopqrstuvwxyz0123456789".data

/-- Membership in `CLEAN_CHARS`. -/
def isCleanChar (c : Char) : Bool := CLEAN_CHARS.contains c

/-! ## Command metadata (`GenericUICommand`)

Python attribute values are dynamically typed; the values the metadata code
stores are `None`, booleans, strings, lists of strings and nested mappings,
modelled by `PyVal`.  The YAML loader (`coreutils.yaml.load_as_dict`) and
the script parser (`coreutils.ScriptFileParser`) live outside the analysed
sources; their outcomes are passed in as explicit inputs.  Logged errors
(`mlogger.error`) are modelled as a diagnostics counter on the state. -/

/-- A dynamically typed Python attribute value. -/
inductive PyVal where
  | none
  | bool (b : Bool)
  | str (s : String)
  | strlist (l : List String)
deriving DecidableEq, Repr

/-- Python truthiness of a `PyVal`. -/
def PyVal.truthy : PyVal → Bool
  | .none => false
  | .bool b => b
  | .str s => s ≠ ""
  | .strlist l => l ≠ []

/-- A parsed descriptor mapping (`self.meta`): key-value pairs, the engine
sub-mapping kept as a separate flat component since it is the only nested
mapping the reader consults. -/
structure MetaDict where
  entries : List (String × PyVal)
  engine : Option (List (String × PyVal))
deriving DecidableEq, Repr

/-- `dict.get(key, default)`. -/
def dictGet (d : List (String × PyVal)) (key : String) (dflt : PyVal) : PyVal :=
  match d.find? (fun kv => kv.1 == key) with
  | some kv => kv.2
  | none => dflt

/-- Modelled from the spec: descriptor keys (`exts.MDATA_*` constants from
the `pyrevit.extensions` package initializer, not among the analysed
sources).  Only their distinctness matters to the claims. -/
def MDATA_ICON_FILE : String := "icon"

/-- Modelled from the spec: the declared-title descriptor key. -/
def MDATA_UI_TITLE : String := "title"

/-- Modelled from the spec: the tooltip descriptor key. -/
def MDATA_TOOLTIP : String := "tooltip"

/-- Modelled from the spec: the single-author descriptor key. -/
def MDATA_AUTHOR : String := "author"

/-- Modelled from the spec: the author-list descriptor key. -/
def MDATA_AUTHORS : String := "authors"

/-- Modelled from the spec: the help-url descriptor key. -/
def MDATA_COMMAND_HELP_URL : String := "help_url"

/-- Modelled from the spec: the minimum-host-version descriptor key. -/
def MDATA_MIN_REVIT_VERSION : String := "min_revit_version"

/-- Modelled from the spec: the maximum-host-version descriptor key. -/
def MDATA_MAX_REVIT_VERSION : String := "max_revit_version"

/-- Modelled from the spec: the beta-flag descriptor key. -/
def MDATA_BETA_SCRIPT : String := "is_beta"

/-- Modelled from the spec: the clean-engine key of the engine sub-mapping. -/
def MDATA_ENGINE_CLEAN : String := "clean"

/-- Modelled from the spec: the fullframe-engine key of the engine sub-mapping. -/
def MDATA_ENGINE_FULLFRAME : String := "full_frame"

/-- Modelled from the spec: the linked-modules descriptor key. -/
def MDATA_LINK_BUTTON_MODULES : String := "modules"

/-- Modelled from the spec: the availability-context descriptor key. -/
def MDATA_COMMAND_CONTEXT : String := "context"

/-- Modelled from the spec: `exts.PANEL_PUSH_BUTTON_POSTFIX`, the directory
suffix (`type_id`) of the "panel push-button" bundle type (constant from
the `pyrevit.extensions` package initializer, not among the analysed
sources). -/
def PANEL_PUSH_BUTTON_TYPE : String := ".panelbutton"

/-- Modelled from the spec: `exts.CTX_ZERODOC[0]`, the fixed "no active
document" availability-context value forced onto panel push-buttons. -/
def CTX_ZERODOC0 : String := "zero-doc"

/-- Modelled from the spec: `exts.PYTHON_LANG` / `exts.PYTHON_SCRIPT_FILE_FORMAT`
(`.py`), and the other supported script-file extensions, used by
`GenericUICommand.script_language`. -/
def PYTHON_SCRIPT_FILE_FORMAT : String := ".py"

/-- Modelled from the spec: the native-script language tag. -/
def PYTHON_LANG : String := "python"

/-- Python `str.lower()` (character-wise, as for the ASCII metadata values
the source compares). -/
def pyLower (s : String) : String :=
  ⟨s.data.map Char.toLower⟩

/-- Suffix test at the character-list level (Python `str.endswith`). -/
def strEndsWith (s suffixStr : String) : Bool :=
  suffixStr.data.isSuffixOf s.data

/-- Prefix test at the character-list level (Python `str.startswith`). -/
def strStartsWith (s pre : String) : Bool :=
  pre.data.isPrefixOf s.data

/-- Python `sep.join(parts)` at the character-list level. -/
def pyJoinWith (sep : String) : List String → String
  | [] => ""
  | [x] => x
  | x :: xs => x ++ sep ++ pyJoinWith sep xs

/-- `.lower() == 'true'` applied to a boolean-like descriptor value; the
reader calls it on string values (default `'false'`). Non-string values are
modelled as not equal to `'true'`. -/
def pyIsTrueString : PyVal → Bool
  | .str s => pyLower s == "true"
  | _ => false

/-- `';'.join(x) if isinstance(x, list) else x` (context normalization). -/
def joinIfList : PyVal → PyVal
  | .strlist l => .str (pyJoinWith ";" l)
  | v => v

/-- `os.path.join` for POSIX paths, as used by
`GenericUICommand.get_bundle_file`. -/
def pyJoin (a b : String) : String :=
  if strStartsWith b "/" then b
  else if a = "" ∨ strEndsWith a "/" then a ++ b
  else a ++ "/" ++ b

/-- `GenericUICommand.get_bundle_file` (lines 624-626): join the bundle
directory with a truthy file name; fall off the end (Python `None`) for a
falsy one. -/
def get_bundle_file (directory : String) : PyVal → PyVal
  | .str s => if s ≠ "" then .str (pyJoin directory s) else .none
  | _ => .none

/-- The metadata-relevant mutable state of a `GenericUICommand`, as
initialised by `__init__` (lines 322-336) and mutated by the two metadata
readers.  `diagnostics` counts `mlogger.error` calls. -/
structure CmdState where
  directory : String
  name : String
  ui_title : PyVal
  meta : MetaDict
  icon_file : PyVal
  script_file : PyVal
  config_script_file : PyVal
  max_revit_ver : PyVal
  min_revit_ver : PyVal
  doc_string : PyVal
  author : PyVal
  cmd_help_url : PyVal
  cmd_context : PyVal
  beta_cmd : PyVal
  requires_clean_engine : PyVal
  requires_fullframe_engine : PyVal
  modules : PyVal
  module_paths : List String
  diagnostics : Nat
deriving DecidableEq, Repr

/-- `GenericUICommand.__init__` together with the `name`/`ui_title` setup at
the top of `__init_from_dir__` (lines 341-342): every metadata attribute
starts at its default (`None`, `False`, `[]`). -/
def initCmdState (directory name : String) : CmdState :=
  { directory := directory
    name := name
    ui_title := .str name
    meta := { entries := [], engine := Option.none }
    icon_file := .none
    script_file := .none
    config_script_file := .none
    max_revit_ver := .none
    min_revit_ver := .none
    doc_string := .none
    author := .none
    cmd_help_url := .none
    cmd_context := .none
    beta_cmd := .bool false
    requires_clean_engine := .bool false
    requires_fullframe_engine := .bool false
    modules := .strlist []
    module_paths := []
    diagnostics := 0 }

/-- `GenericUICommand._read_bundle_metadata` (lines 427-483).  The outcome
of `yaml.load_as_dict(self.meta_file)` is the explicit input `parse`: a
raised parse exception (`.error`) is caught by the `except` clause, which
only logs one error; a loaded mapping (`.ok`) is stored into `self.meta`
and, when truthy (nonempty), mapped onto the attributes exactly as in the
source, with the panel-push-button context override on lines 472-479. -/
def _read_bundle_metadata (parse : Except String MetaDict) (type_id : String)
    (s : CmdState) : CmdState :=
  match parse with
  | .error _ => { s with diagnostics := s.diagnostics + 1 }
  | .ok meta =>
    let s := { s with meta := meta }
    if meta.entries ≠ [] then
      let icon_file := dictGet meta.entries MDATA_ICON_FILE s.icon_file
      let icon_file := get_bundle_file s.directory icon_file
      let s := { s with icon_file := if icon_file.truthy then icon_file else s.icon_file }
      let s := { s with ui_title := dictGet meta.entries MDATA_UI_TITLE s.ui_title }
      let s := { s with doc_string := dictGet meta.entries MDATA_TOOLTIP s.doc_string }
      let s := { s with author := dictGet meta.entries MDATA_AUTHOR s.author }
      let s := { s with author := dictGet meta.entries MDATA_AUTHORS s.author }
      let s := { s with cmd_help_url := dictGet meta.entries MDATA_COMMAND_HELP_URL s.cmd_help_url }
      let s := { s with min_revit_ver := dictGet meta.entries MDATA_MIN_REVIT_VERSION s.min_revit_ver }
      let s := { s with max_revit_ver := dictGet meta.entries MDATA_MAX_REVIT_VERSION s.max_revit_ver }
      let beta := pyIsTrueString (dictGet meta.entries MDATA_BETA_SCRIPT (.str "false"))
      let s := { s with beta_cmd := .bool beta }
      let s :=
        match meta.engine with
        | some eng =>
          { s with
            requires_clean_engine :=
              .bool (pyIsTrueString (dictGet eng MDATA_ENGINE_CLEAN (.str "false")))
            requires_fullframe_engine :=
              .bool (pyIsTrueString (dictGet eng MDATA_ENGINE_FULLFRAME (.str "false"))) }
        | Option.none => s
      let s := { s with modules := dictGet meta.entries MDATA_LINK_BUTTON_MODULES s.modules }
      if type_id ≠ PANEL_PUSH_BUTTON_TYPE then
        { s with cmd_context := joinIfList (dictGet meta.entries MDATA_COMMAND_CONTEXT .none) }
      else
        { s with cmd_context := .str CTX_ZERODOC0 }
    else
      s

/-- The outcome of `coreutils.ScriptFileParser` on the command's script:
`get_docstring()` plus, for each `extract_param` site, the declared value
when the parameter exists (`some v`) or absence (`Option.none`).  Modelled
from the spec: the parser is an external collaborator ("extract declared
parameter by name from source text, plus extract the leading doc-comment as
tooltip"); `extract_param` returns its `default_value` argument (`None`
when not given) for an absent parameter. -/
structure ScriptParams where
  docstring : PyVal
  ui_title : Option PyVal
  custom_docstring : Option PyVal
  author : Option PyVal
  authors : Option PyVal
  max_ver : Option PyVal
  min_ver : Option PyVal
  help_url : Option PyVal
  beta : Option PyVal
  clean_engine : Option PyVal
  fullframe : Option PyVal
  context : Option PyVal
deriving DecidableEq, Repr

/-- `extract_param(name, default)`: the declared value, or the default. -/
def extract_param (v : Option PyVal) (default_value : PyVal) : PyVal :=
  v.getD default_value

/-- `GenericUICommand._read_bundle_metadata_from_python_script` (lines
485-566).  `parse = Option.none` models a parse failure raised inside the
`try` block (before any attribute assignment): `_handle_parse_err` logs one
error and nothing else changes.  On success the extracted parameters are
mapped onto the attributes exactly as in the source, with the
panel-push-button context override on lines 525-532. -/
def _read_bundle_metadata_from_python_script (parse : Option ScriptParams)
    (type_id : String) (s : CmdState) : CmdState :=
  match parse with
  | Option.none => { s with diagnostics := s.diagnostics + 1 }
  | some script_content =>
    let extracted_ui_title := extract_param script_content.ui_title .none
    let s := if extracted_ui_title.truthy then { s with ui_title := extracted_ui_title } else s
    let s := { s with doc_string := script_content.docstring }
    let custom_docstring := extract_param script_content.custom_docstring .none
    let s := if custom_docstring.truthy then { s with doc_string := custom_docstring } else s
    let s := { s with author := extract_param script_content.author .none }
    let s := if ! s.author.truthy
      then { s with author := extract_param script_content.authors .none } else s
    let s := { s with max_revit_ver := extract_param script_content.max_ver .none }
    let s := { s with min_revit_ver := extract_param script_content.min_ver .none }
    let s := { s with cmd_help_url := extract_param script_content.help_url .none }
    let s := { s with beta_cmd := extract_param script_content.beta .none }
    let clean := extract_param script_content.clean_engine (.bool false)
    let s := { s with requires_clean_engine := clean }
    let fullframe := extract_param script_content.fullframe (.bool false)
    let s := { s with requires_fullframe_engine := fullframe }
    if type_id ≠ PANEL_PUSH_BUTTON_TYPE then
      { s with cmd_context := joinIfList (extract_param script_content.context .none) }
    else
      { s with cmd_context := .str CTX_ZERODOC0 }

/-- `GenericUICommand.script_language` (lines 596-612), restricted to the
python case the claims need: `python` when the script file name ends in
`.py`; the value for the other dispatch arms is irrelevant to every claim
and modelled as the opaque tag `"other"`; `None` without a script file. -/
def script_language : PyVal → PyVal
  | .str f => if strEndsWith f PYTHON_SCRIPT_FILE_FORMAT then .str PYTHON_LANG else .str "other"
  | _ => .none

/-- Component-level `add_search_path` on the command state (lines 126-129),
used by the `self.add_search_path(self.directory)` call for python tools. -/
def cmdAddSearchPath (s : CmdState) (path : String) : CmdState :=
  if path ≠ "" ∧ ¬ s.module_paths.contains path then
    { s with module_paths := s.module_paths ++ [path] }
  else s

/-- Lines 369-377 of `__init_from_dir__`: store the located script file
(`_find_bundle_file` outcome, an explicit input) on the state. -/
def initScriptFileStage (script_file : Option String) (s : CmdState) : CmdState :=
  { s with script_file := match script_file with
                          | some f => .str f
                          | Option.none => .none }

/-- Lines 383-390 of `__init_from_dir__`: for a python script, add the
bundle directory to the command's own search paths and, when no descriptor
metadata was loaded (`if not self.meta`), read metadata from the script. -/
def initPythonStage (scriptParse : Option ScriptParams) (type_id : String)
    (s : CmdState) : CmdState :=
  if script_language s.script_file = .str PYTHON_LANG then
    let s := cmdAddSearchPath s s.directory
    if s.meta.entries = [] then
      _read_bundle_metadata_from_python_script scriptParse type_id s
    else s
  else s

/-- Lines 392-400: a missing independent config script falls back to the
main script file. -/
def initConfigStage (config_script_file : Option String) (s : CmdState) : CmdState :=
  { s with config_script_file := match config_script_file with
                                 | some f => .str f
                                 | Option.none => s.script_file }

/-- Lines 402-404: a list-valued author is joined with newlines. -/
def initAuthorStage (s : CmdState) : CmdState :=
  match s.author with
  | .strlist l => { s with author := .str (pyJoinWith "\n" l) }
  | _ => s

/-- The metadata portion of `GenericUICommand.__init_from_dir__` (lines
338-404).  Filesystem lookups are explicit inputs: `hasMetaFile` is whether
`_find_bundle_file` found a descriptor, `metaParse` the loader outcome for
it, `script_file` the located script (or `Option.none`), `scriptParse` the
script-parser outcome, `config_script_file` the located config script.
The descriptor is read when present (lines 362-366); a missing script with
`needs_script` raises `PyRevitException` (lines 379-381, `.error`),
discarding the node; otherwise the python, config-script and author-cleanup
stages run in source order. -/
def initCommandFromDir (type_id directory name : String) (needs_script : Bool)
    (hasMetaFile : Bool) (metaParse : Except String MetaDict)
    (script_file : Option String) (scriptParse : Option ScriptParams)
    (config_script_file : Option String) : Except Unit CmdState :=
  let s := initCmdState directory name
  let s := if hasMetaFile then _read_bundle_metadata metaParse type_id s else s
  let s := initScriptFileStage script_file s
  if needs_script ∧ ¬ s.script_file.truthy then .error () else
  .ok (initAuthorStage (initConfigStage config_script_file
        (initPythonStage scriptParse type_id s)))

/-- The parser outcome for a script with no docstring and no declared
parameters: `get_docstring()` is `None` and every `extract_param` site
reports the parameter absent. -/
def emptyScriptParams : ScriptParams :=
  { docstring := .none, ui_title := Option.none, custom_docstring := Option.none
    author := Option.none, authors := Option.none, max_ver := Option.none
    min_ver := Option.none, help_url := Option.none, beta := Option.none
    clean_engine := Option.none, fullframe := Option.none, context := Option.none }

/-- An empty parsed descriptor mapping (`yaml.load_as_dict` returned `{}`). -/
def emptyMeta : MetaDict := { entries := [], engine := Option.none }

/-- Concrete child fixture `A` (discovery order first). -/
def cmpA : Cmp := { name := "A", ui_title := "A" }

/-- Concrete child fixture `B`. -/
def cmpB : Cmp := { name := "B", ui_title := "B" }

/-- Concrete child fixture `C`. -/
def cmpC : Cmp := { name := "C", ui_title := "C" }

/-- Concrete child fixture named `x`, for the repeated-layout-name scenario. -/
def cmpX : Cmp := { name := "x", ui_title := "x" }

/-- `GenericUICommand.is_supported` (lines 578-590): `False` when a declared
minimum bound exceeds the host version or a declared maximum bound is below
it, `True` otherwise.  Versions are modelled as integers (`int(...)` of the
version strings); an undeclared or falsy bound is `Option.none`. -/
def is_supported (host : Int) (min_revit_ver max_revit_ver : Option Int) : Bool :=
  match min_revit_ver with
  | some m =>
    if host < m then false
    else
      match max_revit_ver with
      | some mx => if host > mx then false else true
      | Option.none => true
  | Option.none =>
    match max_revit_ver with
    | some mx => if host > mx then false else true
    | Option.none => true

deriving instance DecidableEq for Except

/-! ## Helper lemmas -/

theorem read_bundle_metadata_error_eq (parse_err : String) (type_id : String) (s : CmdState) :
    _read_bundle_metadata (.error parse_err) type_id s
      = { s with diagnostics := s.diagnostics + 1 } := rfl

theorem meta_ctx (m : MetaDict) (s : CmdState) (h : m.entries ≠ []) :
    (_read_bundle_metadata (.ok m) PANEL_PUSH_BUTTON_TYPE s).cmd_context = .str CTX_ZERODOC0 := by
  simp [_read_bundle_metadata, h]

theorem meta_meta (m : MetaDict) (tid : String) (s : CmdState) :
    (_read_bundle_metadata (.ok m) tid s).meta = m := by
  simp only [_read_bundle_metadata]
  split <;> (try split) <;> (try cases m.engine) <;> simp

theorem script_ctx (ps : ScriptParams) (s : CmdState) :
    (_read_bundle_metadata_from_python_script (some ps) PANEL_PUSH_BUTTON_TYPE s).cmd_context
      = .str CTX_ZERODOC0 := by
  simp [_read_bundle_metadata_from_python_script]

theorem cmdAdd_ctx (s : CmdState) (p : String) :
    (cmdAddSearchPath s p).cmd_context = s.cmd_context := by
  unfold cmdAddSearchPath; split <;> simp

theorem cmdAdd_meta (s : CmdState) (p : String) :
    (cmdAddSearchPath s p).meta = s.meta := by
  unfold cmdAddSearchPath; split <;> simp

theorem configStage_ctx (cfg : Option String) (s : CmdState) :
    (initConfigStage cfg s).cmd_context = s.cmd_context := rfl

theorem authorStage_ctx (s : CmdState) :
    (initAuthorStage s).cmd_context = s.cmd_context := by
  unfold initAuthorStage; split <;> simp

theorem scriptFileStage_ctx (sf : Option String) (s : CmdState) :
    (initScriptFileStage sf s).cmd_context = s.cmd_context := rfl

theorem scriptFileStage_meta (sf : Option String) (s : CmdState) :
    (initScriptFileStage sf s).meta = s.meta := rfl

theorem pythonStage_ctx_of_meta (sp : Option ScriptParams) (tid : String) (s : CmdState)
    (h : s.meta.entries ≠ []) :
    (initPythonStage sp tid s).cmd_context = s.cmd_context := by
  unfold initPythonStage
  split
  · simp only [cmdAdd_meta]
    rw [if_neg (by simpa using h)]
    exact cmdAdd_ctx s s.directory
  · rfl

theorem pythonStage_ctx_forced (ps : ScriptParams) (s : CmdState)
    (hlang : script_language s.script_file = .str PYTHON_LANG)
    (hmeta : s.meta.entries = []) :
    (initPythonStage (some ps) PANEL_PUSH_BUTTON_TYPE s).cmd_context = .str CTX_ZERODOC0 := by
  unfold initPythonStage
  rw [if_pos hlang]
  simp only [cmdAdd_meta]
  rw [if_pos hmeta]
  exact script_ctx ps _

theorem initCommand_ok_eq (tid d n : String) (ns hm : Bool)
    (mp : Except String MetaDict) (sf : Option String) (sp : Option ScriptParams)
    (cfg : Option String) (s : CmdState)
    (h : initCommandFromDir tid d n ns hm mp sf sp cfg = .ok s) :
    s = initAuthorStage (initConfigStage cfg (initPythonStage sp tid
          (initScriptFileStage sf
            (if hm then _read_bundle_metadata mp tid (initCmdState d n)
             else initCmdState d n)))) := by
  unfold initCommandFromDir at h
  split at h
  · simp only [] at h
    split at h
    · exact absurd h (by simp)
    · injection h with h
      simp only [if_pos (by assumption : hm = true)]
      exact h.symm
  · simp only [] at h
    split at h
    · exact absurd h (by simp)
    · injection h with h
      simp only [if_neg (by simp_all : ¬ hm = true)]
      exact h.symm

theorem script_empty_fields (tid : String) (s : CmdState) :
    (_read_bundle_metadata_from_python_script (some emptyScriptParams) tid s).doc_string = .none ∧
    (_read_bundle_metadata_from_python_script (some emptyScriptParams) tid s).beta_cmd = .none ∧
    (_read_bundle_metadata_from_python_script (some emptyScriptParams) tid s).requires_clean_engine
      = .bool false := by
  unfold _read_bundle_metadata_from_python_script
  simp [emptyScriptParams, extract_param, PyVal.truthy]
  split <;> simp

theorem pathsOf_add (t : UIComp) (p : String) :
    pathsOf (add_search_path t p) =
      if p ≠ "" ∧ ¬ (pathsOf t).contains p then pathsOf t ++ [p] else pathsOf t := by
  cases t with
  | cmd mp =>
    simp only [add_search_path]
    split
    · next h => show mp ++ [p] = _; simp only [pathsOf]; rw [if_pos h]
    · next h => show mp = _; simp only [pathsOf]; rw [if_neg h]
  | cont mp subs =>
    simp only [add_search_path]
    split
    · next h => show mp ++ [p] = _; simp only [pathsOf]; rw [if_pos h]
    · next h => show mp = _; simp only [pathsOf]; rw [if_neg h]

theorem mem_pathsOf_add_self (t : UIComp) (p : String) (hp : p ≠ "") :
    p ∈ pathsOf (add_search_path t p) := by
  rw [pathsOf_add]
  split
  · simp
  · next h =>
    simp only [not_and, not_not] at h
    simpa using h hp

theorem mem_pathsOf_add_mono (t : UIComp) (p q : String) (h : q ∈ pathsOf t) :
    q ∈ pathsOf (add_search_path t p) := by
  rw [pathsOf_add]
  split
  · exact List.mem_append_left _ h
  · exact h

theorem add_search_path_of_mem (t : UIComp) (p : String) (h : p ∈ pathsOf t) :
    add_search_path t p = t := by
  cases t <;> simp_all [add_search_path, pathsOf]

theorem add_search_path_empty (t : UIComp) : add_search_path t "" = t := by
  cases t <;> simp [add_search_path]

theorem add_search_path_idem (t : UIComp) (p : String) :
    add_search_path (add_search_path t p) p = add_search_path t p := by
  by_cases hp : p = ""
  · subst hp
    rw [add_search_path_empty, add_search_path_empty]
  · exact add_search_path_of_mem _ _ (mem_pathsOf_add_self t p hp)

mutual
theorem inherits_add (t : UIComp) (p : String) (h : inheritsB t = true) :
    inheritsB (add_search_path t p) = true :=
  match t with
  | .cmd _ => by simp [add_search_path]; split <;> simp [inheritsB]
  | .cont mp subs => by
    simp only [add_search_path]
    split
    · next hg =>
      simp only [inheritsB] at h ⊢
      exact inherits_add_all mp subs p hg.1 h
    · exact h
theorem inherits_add_all (mp : List String) (subs : UICompList) (p : String)
    (hp : p ≠ "") (h : inheritsAll mp subs = true) :
    inheritsAll (mp ++ [p]) (addSearchPathAll subs p) = true :=
  match subs with
  | .nil => by simp [addSearchPathAll, inheritsAll]
  | .cons c cs => by
    simp only [addSearchPathAll, inheritsAll, Bool.and_eq_true] at h ⊢
    obtain ⟨⟨hall, hc⟩, hcs⟩ := h
    refine ⟨⟨?_, inherits_add c p hc⟩, inherits_add_all mp cs p hp hcs⟩
    simp only [List.all_eq_true] at hall ⊢
    intro q hq
    simp only [List.mem_append, List.mem_singleton] at hq
    rcases hq with hq | rfl
    · exact List.elem_eq_true_of_mem
        (mem_pathsOf_add_mono c p q (List.mem_of_elem_eq_true (hall q hq)))
    · exact List.elem_eq_true_of_mem (mem_pathsOf_add_self c q hp)
end

theorem pathsOf_remove (t : UIComp) (p : String) :
    pathsOf (remove_search_path t p) =
      if p ≠ "" ∧ (pathsOf t).contains p then (pathsOf t).erase p else pathsOf t := by
  cases t with
  | cmd mp =>
    simp only [remove_search_path]
    split
    · next h => show mp.erase p = _; simp only [pathsOf]; rw [if_pos h]
    · next h => show mp = _; simp only [pathsOf]; rw [if_neg h]
  | cont mp subs =>
    simp only [remove_search_path]
    split
    · next h => show mp.erase p = _; simp only [pathsOf]; rw [if_pos h]
    · next h => show mp = _; simp only [pathsOf]; rw [if_neg h]

theorem mem_pathsOf_remove_of_ne (t : UIComp) (p q : String) (hq : q ≠ p)
    (h : q ∈ pathsOf t) : q ∈ pathsOf (remove_search_path t p) := by
  rw [pathsOf_remove]
  split
  · exact (List.mem_erase_of_ne hq).mpr h
  · exact h

mutual
theorem inherits_remove (t : UIComp) (p : String) (hnd : nodupPathsB t = true)
    (h : inheritsB t = true) : inheritsB (remove_search_path t p) = true :=
  match t with
  | .cmd _ => by simp [remove_search_path]; split <;> simp [inheritsB]
  | .cont mp subs => by
    simp only [remove_search_path]
    split
    · next hg =>
      simp only [inheritsB] at h ⊢
      simp only [nodupPathsB, Bool.and_eq_true, decide_eq_true_eq] at hnd
      refine inherits_remove_all mp (mp.erase p) subs p ?_ hnd.2 h
      intro q hq
      exact ⟨List.mem_of_mem_erase hq, fun hqp => hnd.1.not_mem_erase (hqp ▸ hq)⟩
    · exact h
theorem inherits_remove_all (mp mp2 : List String) (subs : UICompList) (p : String)
    (hsub : ∀ q ∈ mp2, q ∈ mp ∧ q ≠ p)
    (hnd : nodupPathsAll subs = true) (h : inheritsAll mp subs = true) :
    inheritsAll mp2 (removeSearchPathAll subs p) = true :=
  match subs with
  | .nil => by simp [removeSearchPathAll, inheritsAll]
  | .cons c cs => by
    simp only [removeSearchPathAll, inheritsAll, Bool.and_eq_true] at h ⊢
    simp only [nodupPathsAll, Bool.and_eq_true] at hnd
    obtain ⟨⟨hall, hc⟩, hcs⟩ := h
    refine ⟨⟨?_, inherits_remove c p hnd.1 hc⟩,
      inherits_remove_all mp mp2 cs p hsub hnd.2 hcs⟩
    simp only [List.all_eq_true] at hall ⊢
    intro q hq
    obtain ⟨hqmp, hqp⟩ := hsub q hq
    exact List.elem_eq_true_of_mem
      (mem_pathsOf_remove_of_ne c p q hqp (List.mem_of_elem_eq_true (hall q hqmp)))
end

theorem inherits_foldl (mp : List String) (c : UIComp) (h : inheritsB c = true) :
    inheritsB (mp.foldl add_search_path c) = true := by
  induction mp generalizing c with
  | nil => exact h
  | cons a mp ih => exact ih _ (inherits_add c a h)

theorem mem_pathsOf_foldl_mono (mp : List String) (c : UIComp) (q : String)
    (h : q ∈ pathsOf c) : q ∈ pathsOf (mp.foldl add_search_path c) := by
  induction mp generalizing c with
  | nil => exact h
  | cons a mp ih => exact ih _ (mem_pathsOf_add_mono c a q h)

theorem mem_pathsOf_foldl_self (mp : List String) (c : UIComp) (q : String)
    (hq : q ∈ mp) (hne : q ≠ "") : q ∈ pathsOf (mp.foldl add_search_path c) := by
  induction mp generalizing c with
  | nil => cases hq
  | cons a mp ih =>
    rcases List.mem_cons.mp hq with rfl | hq
    · exact mem_pathsOf_foldl_mono mp _ q (mem_pathsOf_add_self c q hne)
    · exact ih (add_search_path c a) hq

theorem inheritsAll_snoc (mp : List String) (subs : UICompList) (x : UIComp)
    (h : inheritsAll mp subs = true)
    (hall : mp.all (fun q => (pathsOf x).contains q) = true)
    (hx : inheritsB x = true) :
    inheritsAll mp (snocComp subs x) = true :=
  match subs with
  | .nil => by
    simp only [snocComp, inheritsAll, Bool.and_eq_true]
    refine ⟨⟨?_, hx⟩, trivial⟩
    simpa using hall
  | .cons c cs => by
    simp only [snocComp, inheritsAll, Bool.and_eq_true] at h ⊢
    exact ⟨h.1, inheritsAll_snoc mp cs x h.2 hall hx⟩

theorem inherits_add_component (t c : UIComp) (hne : noEmptyPathsB t = true)
    (ht : inheritsB t = true) (hc : inheritsB c = true) :
    inheritsB (add_component t c) = true := by
  cases t with
  | cmd mp => exact ht
  | cont mp subs =>
    simp only [add_component, inheritsB]
    simp only [inheritsB] at ht
    simp only [noEmptyPathsB, Bool.and_eq_true, Bool.not_eq_true'] at hne
    refine inheritsAll_snoc mp subs _ ht ?_ (inherits_foldl mp c hc)
    simp only [List.all_eq_true]
    intro q hq
    refine List.elem_eq_true_of_mem (mem_pathsOf_foldl_self mp c q hq ?_)
    intro hq0
    subst hq0
    have : mp.contains "" = true := List.elem_eq_true_of_mem hq
    rw [hne.1] at this
    cases this

theorem nodup_root (t : UIComp) (h : nodupPathsB t = true) : (pathsOf t).Nodup := by
  cases t <;> simp_all [nodupPathsB, pathsOf]

theorem count_pathsOf_add (t : UIComp) (p : String) (hp : p ≠ "")
    (hnd : (pathsOf t).Nodup) : (pathsOf (add_search_path t p)).count p = 1 := by
  rw [pathsOf_add]
  split
  · next h =>
    have hnm : p ∉ pathsOf t := by
      have := h.2
      simpa using this
    rw [List.count_append, List.count_eq_zero_of_not_mem hnm]
    simp
  · next h =>
    simp only [not_and, not_not] at h
    exact List.count_eq_one_of_mem hnd (by simpa using h hp)

mutual
theorem addOnce_holds (t : UIComp) (p : String) (hp : p ≠ "")
    (hnd : nodupPathsB t = true) : addOnceOk p t = true :=
  match t with
  | .cmd mp => by
    simp only [addOnceOk, beq_iff_eq]
    exact count_pathsOf_add (.cmd mp) p hp (nodup_root _ hnd)
  | .cont mp subs => by
    simp only [addOnceOk, Bool.and_eq_true, beq_iff_eq]
    simp only [nodupPathsB, Bool.and_eq_true, decide_eq_true_eq] at hnd
    refine ⟨count_pathsOf_add (.cont mp subs) p hp (by simpa [pathsOf] using hnd.1), ?_⟩
    rcases hmem : mp.contains p with _ | _
    · simp only [Bool.false_or]
      exact addOnce_holds_all subs p hp hnd.2
    · simp
theorem addOnce_holds_all (subs : UICompList) (p : String) (hp : p ≠ "")
    (hnd : nodupPathsAll subs = true) : addOnceOkAll p subs = true :=
  match subs with
  | .nil => rfl
  | .cons c cs => by
    simp only [addOnceOkAll, Bool.and_eq_true]
    simp only [nodupPathsAll, Bool.and_eq_true] at hnd
    exact ⟨addOnce_holds c p hp hnd.1, addOnce_holds_all cs p hp hnd.2⟩
end

theorem chunk_eq (x1 : List Char) (x2 r1 r2 : List Char)
    (hx1 : x1 ≠ []) (hx2 : x2 ≠ []) (hd1 : '-' ∉ x1) (hd2 : '-' ∉ x2)
    (hr1 : r1 = [] ∨ ∃ t, r1 = '-' :: t) (hr2 : r2 = [] ∨ ∃ t, r2 = '-' :: t)
    (heq : x1 ++ r1 = x2 ++ r2) : x1 = x2 ∧ r1 = r2 := by
  induction x1 generalizing x2 with
  | nil => exact absurd rfl hx1
  | cons a x1 ih =>
    cases x2 with
    | nil => exact absurd rfl hx2
    | cons b x2 =>
      simp only [List.cons_append, List.cons.injEq] at heq
      obtain ⟨rfl, heq⟩ := heq
      cases x1 with
      | nil =>
        cases x2 with
        | nil => exact ⟨rfl, heq⟩
        | cons c x2 =>
          simp only [List.nil_append, List.cons_append] at heq
          rcases hr1 with rfl | ⟨t, rfl⟩
          · cases heq
          · have hc : c = '-' := by
              have := congrArg (fun l => l.head?) heq
              simpa [eq_comm] using this
            exact absurd (hc ▸ List.mem_cons_of_mem a (List.mem_cons_self c x2)) hd2
      | cons c x1 =>
        cases x2 with
        | nil =>
          simp only [List.cons_append, List.nil_append] at heq
          rcases hr2 with rfl | ⟨t, rfl⟩
          · cases heq
          · have hc : c = '-' := by
              have := congrArg (fun l => l.head?) heq
              simpa using this
            exact absurd (hc ▸ List.mem_cons_of_mem a (List.mem_cons_self c x1)) hd1
        | cons d x2 =>
          have h1 : (c :: x1) ++ r1 = (d :: x2) ++ r2 := by simpa using heq
          obtain ⟨he, hr⟩ := ih (d :: x2) (by simp) (by simp)
            (fun hm => hd1 (List.mem_cons_of_mem a hm))
            (fun hm => hd2 (List.mem_cons_of_mem a hm)) h1
          exact ⟨by rw [he], hr⟩

theorem joinSep_inj (P1 : List (List Char)) (P2 : List (List Char))
    (h1 : ∀ x ∈ P1, x ≠ [] ∧ '-' ∉ x) (h2 : ∀ x ∈ P2, x ≠ [] ∧ '-' ∉ x)
    (heq : joinSep P1 = joinSep P2) : P1 = P2 := by
  induction P1 generalizing P2 with
  | nil =>
    cases P2 with
    | nil => rfl
    | cons x2 t2 =>
      exfalso
      obtain ⟨hx2, -⟩ := h2 x2 (by simp)
      cases t2 with
      | nil => exact hx2 (by simpa [joinSep] using heq.symm)
      | cons y t2 =>
        simp only [joinSep] at heq
        cases x2 with
        | nil => exact hx2 rfl
        | cons c x2 => cases heq
  | cons x1 t1 ih =>
    cases P2 with
    | nil =>
      exfalso
      obtain ⟨hx1, -⟩ := h1 x1 (by simp)
      cases t1 with
      | nil => exact hx1 (by simpa [joinSep] using heq)
      | cons y t1 =>
        simp only [joinSep] at heq
        cases x1 with
        | nil => exact hx1 rfl
        | cons c x1 => cases heq
    | cons x2 t2 =>
      obtain ⟨hx1, hd1⟩ := h1 x1 (by simp)
      obtain ⟨hx2, hd2⟩ := h2 x2 (by simp)
      cases t1 with
      | nil =>
        cases t2 with
        | nil => simpa [joinSep] using heq
        | cons y2 t2 =>
          simp only [joinSep] at heq
          obtain ⟨-, hr⟩ := chunk_eq x1 x2 [] ('-' :: joinSep (y2 :: t2))
            hx1 hx2 hd1 hd2 (Or.inl rfl) (Or.inr ⟨_, rfl⟩) (by simpa using heq)
          cases hr
      | cons y1 t1 =>
        cases t2 with
        | nil =>
          simp only [joinSep] at heq
          obtain ⟨-, hr⟩ := chunk_eq x1 x2 ('-' :: joinSep (y1 :: t1)) []
            hx1 hx2 hd1 hd2 (Or.inr ⟨_, rfl⟩) (Or.inl rfl) (by simpa using heq)
          cases hr
        | cons y2 t2 =>
          simp only [joinSep] at heq
          obtain ⟨hx, hr⟩ := chunk_eq x1 x2 ('-' :: joinSep (y1 :: t1)) ('-' :: joinSep (y2 :: t2))
            hx1 hx2 hd1 hd2 (Or.inr ⟨_, rfl⟩) (Or.inr ⟨_, rfl⟩) heq
          injection hr with _ hr
          rw [hx, ih (y2 :: t2) (fun x hx => h1 x (List.mem_cons_of_mem x1 hx))
            (fun x hx => h2 x (List.mem_cons_of_mem x2 hx)) hr]

theorem lower_fix (c : Char) (h : isCleanChar c = true) : c.toLower = c := by
  have hm : c ∈ CLEAN_CHARS := by simpa [isCleanChar] using h
  fin_cases hm <;> decide

theorem keep_char (c : Char) (h : isCleanChar c = true) :
    (c.isAlphanum || [UNIQUE_ID_SEPARATOR].contains c) = true := by
  have hm : c ∈ CLEAN_CHARS := by simpa [isCleanChar] using h
  fin_cases hm <;> decide

theorem dash_not_clean : isCleanChar '-' = false := by decide

theorem mem_joinSep (P : List (List Char)) (c : Char) (h : c ∈ joinSep P) :
    (∃ x ∈ P, c ∈ x) ∨ c = '-' := by
  induction P with
  | nil => cases h
  | cons x t ih =>
    cases t with
    | nil => exact Or.inl ⟨x, by simp, by simpa [joinSep] using h⟩
    | cons y t =>
      simp only [joinSep, List.mem_append, List.mem_cons] at h
      rcases h with hx | rfl | hj
      · exact Or.inl ⟨x, by simp, hx⟩
      · exact Or.inr rfl
      · rcases ih (by simpa [joinSep] using hj) with ⟨z, hz, hc⟩ | rfl
        · exact Or.inl ⟨z, List.mem_cons_of_mem x hz, hc⟩
        · exact Or.inr rfl

theorem unique_name_eq_join (d : String)
    (h : ∀ x ∈ uniqueNamePieces (splitSep d.data) false,
      x ≠ [] ∧ ∀ c ∈ x, isCleanChar c = true) :
    _get_unique_name d = ⟨joinSep (uniqueNamePieces (splitSep d.data) false)⟩ := by
  unfold _get_unique_name
  congr 1
  have hchars : ∀ c ∈ joinSep (uniqueNamePieces (splitSep d.data) false),
      isCleanChar c = true ∨ c = '-' := by
    intro c hc
    rcases mem_joinSep _ c hc with ⟨x, hx, hcx⟩ | rfl
    · exact Or.inl ((h x hx).2 c hcx)
    · exact Or.inr rfl
  have hfil : cleanup_string (joinSep (uniqueNamePieces (splitSep d.data) false))
      [UNIQUE_ID_SEPARATOR] = joinSep (uniqueNamePieces (splitSep d.data) false) := by
    unfold cleanup_string
    rw [List.filter_eq_self.mpr]
    intro a ha
    rcases hchars a ha with hc | rfl
    · exact keep_char a hc
    · decide
  rw [hfil]
  have hl : ∀ c ∈ joinSep (uniqueNamePieces (splitSep d.data) false), c.toLower = c := by
    intro c hc
    rcases hchars c hc with hc2 | rfl
    · exact lower_fix c hc2
    · decide
  calc (joinSep (uniqueNamePieces (splitSep d.data) false)).map Char.toLower
      = (joinSep (uniqueNamePieces (splitSep d.data) false)).map id :=
        List.map_congr_left hl
    _ = joinSep (uniqueNamePieces (splitSep d.data) false) := List.map_id _

/-! ## Claim theorems -/

/-- C1, counterexample: with stored children `[x]` and cleaned layout items
`["x", "x"]`, the matching pass appends the same stored child twice — the
claim's "each stored child is appended to the ordered output at most once"
fails, because the inner scan restarts from the full `_sub_components` list
for every layout item and no child is ever marked consumed. -/
theorem claim1_counterexample :
    _get_components_per_layout (some ["x", "x"]) [cmpX]
        = [LayoutEntry.comp cmpX, LayoutEntry.comp cmpX] ∧
      (_get_components_per_layout (some ["x", "x"]) [cmpX]).count (LayoutEntry.comp cmpX)
        = 2 := by
  constructor <;> decide

/-- C1, amended: for each occurrence of a name in the cleaned layout-item
list, the first stored child (in storage order) whose name equals it is
appended, after directive application; children are not consumed, so a name
occurring `k` times appends the same first-matching child `k` times, and a
stored child that is not the first match for its name is never appended.
Formally, the matching pass equals one `find?`-projection per layout item. -/
theorem claim1_layout_matching (layout_directives : List LayoutDirective)
    (sub_components : List Cmp) (layout_items : List String) :
    layoutMatchPass layout_directives sub_components layout_items =
      layout_items.filterMap (fun layout_item =>
        (sub_components.find? (fun component => component.name == layout_item)).map
          (fun component =>
            LayoutEntry.comp (_apply_layout_directive layout_directives component))) := by
  have go : ∀ (its : List String) (acc : List LayoutEntry),
      its.foldl (fun acc layout_item =>
        match sub_components.find? (fun component => component.name == layout_item) with
        | some component =>
          acc ++ [LayoutEntry.comp (_apply_layout_directive layout_directives component)]
        | none => acc) acc =
      acc ++ its.filterMap (fun layout_item =>
        (sub_components.find? (fun component => component.name == layout_item)).map
          (fun component =>
            LayoutEntry.comp (_apply_layout_directive layout_directives component))) := by
    intro its
    induction its with
    | nil => intro acc; simp
    | cons it rest ih =>
      intro acc
      simp only [List.foldl_cons, List.filterMap_cons]
      cases h : sub_components.find? (fun component => component.name == it) with
      | none => simp [h, ih]
      | some component => simp [h, ih, List.append_assoc]
  exact go layout_items []

/-- C2: with stored children `A, B, C` (discovery order) and layout lines
`["B", "---", "A"]`, container iteration yields exactly `[B, separator, A]`
(`C` is excluded); and any container with no layout file iterates its stored
children in discovery order with no synthetic marker nodes. -/
theorem claim2_layout_roundtrip :
    _get_components_per_layout (some ["B", "---", "A"]) [cmpA, cmpB, cmpC]
        = [LayoutEntry.comp cmpB, LayoutEntry.generic SEPARATOR_IDENTIFIER,
           LayoutEntry.comp cmpA] ∧
      ∀ sub_components : List Cmp,
        _get_components_per_layout Option.none sub_components
          = sub_components.map LayoutEntry.comp :=
  ⟨by decide, fun _ => rfl⟩

/-- C4: when the descriptor file's content is malformed (the loader raises),
`_read_bundle_metadata` returns normally (it is a total function of the
parse outcome — the `except` clause swallows the exception), records exactly
one diagnostic, and leaves every node attribute exactly as it was, i.e. at
its pre-read (default) value, just as if no metadata had been found. -/
theorem claim4_malformed_descriptor (parse_err : String) (type_id : String) (s : CmdState) :
    _read_bundle_metadata (.error parse_err) type_id s
      = { s with diagnostics := s.diagnostics + 1 } :=
  read_bundle_metadata_error_eq parse_err type_id s

/-- C5, counterexample: a panel push-button command constructed with no
descriptor file and a C# (non-python) script runs neither metadata
strategy, and its availability context remains `None` — not the fixed
"no active document" value — so the claim's "regardless of which metadata
strategy (descriptor, content-parsing, or neither) applied" fails. -/
theorem claim5_counterexample :
    ((initCommandFromDir PANEL_PUSH_BUTTON_TYPE "d" "n" true false (.ok emptyMeta)
        (some "script.cs") (some emptyScriptParams) Option.none).toOption.map
      CmdState.cmd_context) = some PyVal.none ∧
      PyVal.none ≠ PyVal.str CTX_ZERODOC0 := by
  constructor <;> decide

/-- C5, amended: a panel push-button command's availability context equals
the fixed "no active document" value whenever a metadata strategy actually
processed metadata: either the descriptor strategy applied with a truthy
(nonempty) parsed mapping, or the script is python, descriptor metadata is
falsy (no descriptor file, a malformed one, or an empty mapping), and the
script parser succeeded.  When neither strategy reaches its context step
the attribute keeps its default `None`. -/
theorem claim5_panel_button_context (directory name : String)
    (needs_script hasMetaFile : Bool) (metaParse : Except String MetaDict)
    (script_file : Option String) (ps : ScriptParams)
    (config_script_file : Option String) (s : CmdState)
    (hres : initCommandFromDir PANEL_PUSH_BUTTON_TYPE directory name needs_script
      hasMetaFile metaParse script_file (some ps) config_script_file = .ok s)
    (hstrat :
      (hasMetaFile = true ∧ ∃ m, metaParse = .ok m ∧ m.entries ≠ []) ∨
      ((∃ f, script_file = some f ∧ strEndsWith f PYTHON_SCRIPT_FILE_FORMAT = true) ∧
        (hasMetaFile = false ∨ (∃ e, metaParse = .error e) ∨
          (∃ m, metaParse = .ok m ∧ m.entries = [])))) :
    s.cmd_context = .str CTX_ZERODOC0 := by
  rw [initCommand_ok_eq _ _ _ _ _ _ _ _ _ _ hres]
  rw [authorStage_ctx, configStage_ctx]
  rcases hstrat with ⟨hmf, m, hmp, hne⟩ | ⟨⟨f, hsf, hpy⟩, hfalsy⟩
  · subst hmf; subst hmp
    rw [pythonStage_ctx_of_meta _ _ _
      (by rw [scriptFileStage_meta, if_pos rfl, meta_meta]; exact hne)]
    rw [scriptFileStage_ctx, if_pos rfl]
    exact meta_ctx m _ hne
  · subst hsf
    refine pythonStage_ctx_forced ps _ ?_ ?_
    · simp [initScriptFileStage, script_language, hpy]
    · rw [scriptFileStage_meta]
      rcases hfalsy with hmf | ⟨e, herr⟩ | ⟨m, hok, hemp⟩
      · subst hmf; simp [initCmdState]
      · subst herr
        cases hasMetaFile <;> simp [initCmdState, read_bundle_metadata_error_eq]
      · subst hok
        cases hasMetaFile <;> simp [initCmdState, meta_meta, hemp]

/-- C5, witness: a concrete panel push-button whose descriptor declares a
context nevertheless reports the fixed value, via the amended theorem. -/
theorem claim5_witness :
    ((initCommandFromDir PANEL_PUSH_BUTTON_TYPE "d" "n" true true
        (.ok { entries := [(MDATA_COMMAND_CONTEXT, PyVal.str "doc")], engine := Option.none })
        (some "script.py") (some emptyScriptParams) Option.none).toOption.map
      CmdState.cmd_context) = some (PyVal.str CTX_ZERODOC0) := by
  cases hres : initCommandFromDir PANEL_PUSH_BUTTON_TYPE "d" "n" true true
      (.ok { entries := [(MDATA_COMMAND_CONTEXT, PyVal.str "doc")], engine := Option.none })
      (some "script.py") (some emptyScriptParams) Option.none with
  | error e => cases e; exact absurd hres (by decide)
  | ok s =>
    have := claim5_panel_button_context "d" "n" true true
      (.ok { entries := [(MDATA_COMMAND_CONTEXT, PyVal.str "doc")], engine := Option.none })
      (some "script.py") emptyScriptParams Option.none s hres
      (Or.inl ⟨rfl, _, rfl, by decide⟩)
    simp [Except.toOption, this]

/-- C6, counterexample: a command leaf with no descriptor file and a python
script with no extractable parameters ends construction with
`beta_cmd = None` (the bare `extract_param` result), not `False` — Python
`None == False` is false — so the claim's `beta_cmd = False` fails. -/
theorem claim6_counterexample :
    ((initCommandFromDir ".pushbutton" "d" "n" true false (.ok emptyMeta)
        (some "script.py") (some emptyScriptParams) Option.none).toOption.map
      CmdState.beta_cmd) = some PyVal.none ∧
      PyVal.none ≠ PyVal.bool false := by
  constructor <;> decide

/-- C6, amended: a command leaf with no descriptor file and a python script
with no extractable parameters ends construction with `doc_string = None`
and `requires_clean_engine = False` as claimed, but with `beta_cmd = None`
(a falsy value) rather than `False`, since the beta extraction is assigned
with no default. -/
theorem claim6_no_metadata_defaults (tid directory name : String) (needs_script : Bool)
    (metaParse : Except String MetaDict) (f : String)
    (config_script_file : Option String) (s : CmdState)
    (hpy : strEndsWith f PYTHON_SCRIPT_FILE_FORMAT = true)
    (hres : initCommandFromDir tid directory name needs_script false metaParse
      (some f) (some emptyScriptParams) config_script_file = .ok s) :
    s.doc_string = .none ∧ s.beta_cmd = .none ∧ s.requires_clean_engine = .bool false := by
  rw [initCommand_ok_eq _ _ _ _ _ _ _ _ _ _ hres]
  simp only [Bool.false_eq_true, if_false]
  have hfields := script_empty_fields tid
    (cmdAddSearchPath (initScriptFileStage (some f) (initCmdState directory name))
      (initScriptFileStage (some f) (initCmdState directory name)).directory)
  unfold initPythonStage
  rw [if_pos (by simp [initScriptFileStage, script_language, hpy])]
  simp only [cmdAdd_meta]
  rw [if_pos (by simp [initScriptFileStage, initCmdState])]
  unfold initAuthorStage initConfigStage
  split <;> simp_all

/-- C6, witness: the amended theorem applied at a concrete bundle. -/
theorem claim6_witness :
    ((initCommandFromDir ".pushbutton" "d2" "n2" true false (.ok emptyMeta)
        (some "other.py") (some emptyScriptParams) Option.none).toOption.map
      (fun s => (s.doc_string, s.beta_cmd, s.requires_clean_engine)))
    = some (PyVal.none, PyVal.none, PyVal.bool false) := by
  cases hres : initCommandFromDir ".pushbutton" "d2" "n2" true false (.ok emptyMeta)
      (some "other.py") (some emptyScriptParams) Option.none with
  | error e => cases e; exact absurd hres (by decide)
  | ok s =>
    obtain ⟨h1, h2, h3⟩ := claim6_no_metadata_defaults ".pushbutton" "d2" "n2" true
      (.ok emptyMeta) "other.py" Option.none s (by decide) hres
    simp [Except.toOption, h1, h2, h3]

/-- C7: `is_supported` is a pure predicate of the host version and the
declared bounds, true exactly when the host version violates neither
declared bound — so it is true with no bounds declared, false strictly
below a declared minimum or strictly above a declared maximum, and true at
the boundary values themselves. -/
theorem claim7_is_supported (host : Int) (minv maxv : Option Int) :
    is_supported host minv maxv = true ↔
      ((∀ m, minv = some m → m ≤ host) ∧ (∀ mx, maxv = some mx → host ≤ mx)) := by
  cases minv <;> cases maxv <;> simp [is_supported]

/-- C7, witness: a host version equal to both boundary values is supported,
via the characterization. -/
theorem claim7_witness : is_supported 2021 (some 2021) (some 2021) = true :=
  (claim7_is_supported 2021 (some 2021) (some 2021)).mpr
    ⟨fun m hm => by injection hm with hm; omega,
     fun mx hmx => by injection hmx with hmx; omega⟩

/-- C10: `contains` returns `True` (`some true`) exactly when some direct
stored child's name equals the queried name, and otherwise falls off the
loop returning `None` — never the boolean `False` — so identity/strict
comparisons against `False` see a difference for absent names. -/
theorem claim10_contains (sub_components : List Cmp) (n : String) :
    (contains sub_components n = some true ↔ ∃ c ∈ sub_components, c.name = n) ∧
      contains sub_components n ≠ some false := by
  unfold contains
  cases h : sub_components.find? (fun component => n == component.name) with
  | none =>
    rw [List.find?_eq_none] at h
    constructor
    · constructor
      · intro hc
        exact absurd hc (by simp)
      · rintro ⟨c, hc, hn⟩
        have hb : (n == c.name) = true := by rw [hn]; exact beq_self_eq_true n
        exact absurd hb (h c hc)
    · intro hc
      exact absurd hc (by simp)
  | some c =>
    constructor
    · constructor
      · intro _
        refine ⟨c, List.mem_of_find?_eq_some h, ?_⟩
        have hb := List.find?_some h
        simp only [beq_iff_eq] at hb
        exact hb.symm
      · intro _
        rfl
    · intro hc
      exact absurd hc (by simp)

/-- C10, witness: the characterization at a present and an absent name. -/
theorem claim10_witness :
    contains [cmpA, cmpB] "B" = some true ∧ contains [cmpA, cmpB] "Z" ≠ some false :=
  ⟨(claim10_contains [cmpA, cmpB] "B").1.mpr ⟨cmpB, by simp, rfl⟩,
   (claim10_contains [cmpA, cmpB] "Z").2⟩

/-- C8, counterexample: "exactly one occurrence of p after two calls" fails
both on a node whose list already holds `p` twice (the guard sees `p`
present and never deduplicates, leaving two occurrences) and on the falsy
path `""` (the `if path` guard skips it, leaving zero occurrences). -/
theorem claim8_counterexample :
    (pathsOf (add_search_path (add_search_path (UIComp.cmd ["p", "p"]) "p") "p")).count "p"
        = 2 ∧
      (pathsOf (add_search_path (add_search_path (UIComp.cmd []) "") "")).count "" = 0 := by
  constructor <;> decide

/-- C8, amended: for every nonempty path `p` and every node whose
search-path lists are duplicate-free (as every API-built tree is), calling
`add_search_path p` twice is literally the same state as calling it once;
afterwards `p` occurs exactly once in the node's own list, and exactly once
in the list of every descendant the propagation reached (`addOnceOk`:
a container that already held `p` does not propagate). -/
theorem claim8_add_search_path_idempotent (t : UIComp) (p : String) (hp : p ≠ "")
    (hnd : nodupPathsB t = true) :
    add_search_path (add_search_path t p) p = add_search_path t p ∧
      (pathsOf (add_search_path (add_search_path t p) p)).count p = 1 ∧
      addOnceOk p t = true :=
  ⟨add_search_path_idem t p,
   by rw [add_search_path_idem]; exact count_pathsOf_add t p hp (nodup_root t hnd),
   addOnce_holds t p hp hnd⟩

/-- C8, witness: the amended idempotence at a concrete container with one
child, adding a fresh nonempty path twice. -/
theorem claim8_witness :
    add_search_path (add_search_path (UIComp.cont ["a"] (.cons (.cmd []) .nil)) "b") "b"
        = add_search_path (UIComp.cont ["a"] (.cons (.cmd []) .nil)) "b" ∧
      (pathsOf (add_search_path
        (add_search_path (UIComp.cont ["a"] (.cons (.cmd []) .nil)) "b") "b")).count "b" = 1 ∧
      addOnceOk "b" (UIComp.cont ["a"] (.cons (.cmd []) .nil)) = true :=
  claim8_add_search_path_idempotent (UIComp.cont ["a"] (.cons (.cmd []) .nil)) "b"
    (by decide) (by decide)

/-- C9, counterexample: downward inheritance is not preserved from every
state satisfying it.  A container holding the path `q` twice with a child
holding it once satisfies the invariant, but `remove_search_path q` erases
only the first parent occurrence while stripping the child, leaving a
parent path missing from the child; and a childless container holding the
empty-string path satisfies the invariant vacuously, but `add_component`
cannot propagate `""` past the truthiness guard, so the new child lacks it. -/
theorem claim9_counterexample :
    inheritsB (UIComp.cont ["q", "q"] (.cons (.cmd ["q"]) .nil)) = true ∧
      inheritsB (remove_search_path
        (UIComp.cont ["q", "q"] (.cons (.cmd ["q"]) .nil)) "q") = false ∧
      inheritsB (UIComp.cont [""] .nil) = true ∧
      inheritsB (add_component (UIComp.cont [""] .nil) (.cmd [])) = false := by
  refine ⟨by decide, by decide, by decide, by decide⟩

/-- C9, amended: downward search-path inheritance is preserved by
`add_search_path`, `remove_search_path` and `add_component` on every tree
whose path lists are duplicate-free and free of the empty string — the
states actually reachable through the API — with the added component itself
satisfying the invariant. -/
theorem claim9_inheritance_preserved (t c : UIComp) (p : String)
    (hnd : nodupPathsB t = true) (hne : noEmptyPathsB t = true)
    (ht : inheritsB t = true) (hc : inheritsB c = true) :
    inheritsB (add_search_path t p) = true ∧
      inheritsB (remove_search_path t p) = true ∧
      inheritsB (add_component t c) = true :=
  ⟨inherits_add t p ht, inherits_remove t p hnd ht, inherits_add_component t c hne ht hc⟩

/-- C3, counterexample: two distinct directory paths — both already
lower-case and separator-normalized, so no normalization distinguishes
them — receive the same unique identifier: the dash that joins the
extension-stripped segment names also occurs inside segment names, so
`e.extension/a-b.tab/c.panel` and `e.extension/a.tab/b-c.panel` both map to
`e-a-b-c`; the identifier is not injective. -/
theorem claim3_counterexample :
    _get_unique_name "e.extension/a-b.tab/c.panel"
        = _get_unique_name "e.extension/a.tab/b-c.panel" ∧
      ("e.extension/a-b.tab/c.panel" : String) ≠ "e.extension/a.tab/b-c.panel" := by
  constructor <;> decide

/-- C3, amended: the unique identifier is a pure function of the directory
path, but injective only on a restricted domain: when every collected
segment name is nonempty and consists of lower-case alphanumerics (so
`cleanup_string` and lower-casing act as identity and no name contains the
join separator), distinct piece lists yield distinct identifiers.  In
general distinct paths may collide (see the counterexample). -/
theorem claim3_unique_name_restricted_injective (d1 d2 : String)
    (h1 : ∀ x ∈ uniqueNamePieces (splitSep d1.data) false,
      x ≠ [] ∧ ∀ c ∈ x, isCleanChar c = true)
    (h2 : ∀ x ∈ uniqueNamePieces (splitSep d2.data) false,
      x ≠ [] ∧ ∀ c ∈ x, isCleanChar c = true)
    (hne : uniqueNamePieces (splitSep d1.data) false
      ≠ uniqueNamePieces (splitSep d2.data) false) :
    _get_unique_name d1 ≠ _get_unique_name d2 := by
  intro he
  rw [unique_name_eq_join d1 h1, unique_name_eq_join d2 h2] at he
  have hdata : joinSep (uniqueNamePieces (splitSep d1.data) false)
      = joinSep (uniqueNamePieces (splitSep d2.data) false) := congrArg String.data he
  refine hne (joinSep_inj _ _ ?_ ?_ hdata)
  · intro x hx
    refine ⟨(h1 x hx).1, fun hd => ?_⟩
    have := (h1 x hx).2 '-' hd
    rw [dash_not_clean] at this
    cases this
  · intro x hx
    refine ⟨(h2 x hx).1, fun hd => ?_⟩
    have := (h2 x hx).2 '-' hd
    rw [dash_not_clean] at this
    cases this

/-- C3, witness: two sibling tab paths with clean segment names receive
distinct identifiers, via the restricted injectivity theorem. -/
theorem claim3_witness :
    _get_unique_name "e.extension/a.tab" ≠ _get_unique_name "e.extension/b.tab" :=
  claim3_unique_name_restricted_injective "e.extension/a.tab" "e.extension/b.tab"
    (by decide) (by decide) (by decide)

/-- C9, witness: invariant preservation at a concrete container. -/
theorem claim9_witness :
    inheritsB (add_search_path (UIComp.cont ["x"] (.cons (.cmd ["x", "y"]) .nil)) "y")
        = true ∧
      inheritsB (remove_search_path (UIComp.cont ["x"] (.cons (.cmd ["x", "y"]) .nil)) "y")
        = true ∧
      inheritsB (add_component (UIComp.cont ["x"] (.cons (.cmd ["x", "y"]) .nil)) (.cmd []))
        = true :=
  claim9_inheritance_preserved (UIComp.cont ["x"] (.cons (.cmd ["x", "y"]) .nil))
    (.cmd []) "y" (by decide) (by decide) (by decide) (by decide)

end PyRevit
